import Mathlib

/-!
Verification of the kobuki robot driver's serial-protocol engine and of the
keyboard teleoperation node.

The development shallowly embeds the two source files of the repository:

* `kobuki_node/include/kobuki_node/kobuki.hpp` — the device driver header.
  Its only function body is `PacketFinder::checkSum`, embedded below as
  `Kobuki.checkSum`.  The remaining protocol components (packet framer,
  odometry engine, command encoder, connection state machine) are declared
  there but their bodies are not part of the repository sources, so they are
  modelled from the specification text (each such definition says so in its
  doc comment).
* `kobuki_keyop/src/keyop_core.cpp` — the teleoperation node, embedded in
  the `KeyOp` namespace.

Bytes are modelled as `Nat` (the XOR computations never leave `[0, 256)` when
the inputs are bytes, and none of the properties below depend on the bound).
Real-valued quantities (`double` in the C++ sources) are modelled as `ℚ`.
-/

namespace Kobuki

/-- PacketFinder::checkSum (kobuki.hpp lines 74-84): starting from `cs = 0`,
the loop `for i=2..size-1, cs ^= buffer[i]` folds XOR over the bytes of the
buffer from index 2 on, and the function returns true exactly when the final
accumulator is zero. -/
def checkSum (buffer : List Nat) : Bool :=
  List.foldl (· ^^^ ·) 0 (buffer.drop 2) == 0

/-- The specification's reading of the checksum: the XOR of all bytes of the
buffer from index 2 through the last byte inclusive (written as a right fold,
independently of the loop in the code). -/
def xorFromTwo (buffer : List Nat) : Nat :=
  (buffer.drop 2).foldr (· ^^^ ·) 0

/-- First header byte of the wire format. -/
def headerByte0 : Nat := 170

/-- Second header byte of the wire format. -/
def headerByte1 : Nat := 85

/-- Modelled from the spec: the Framer's header scan (§4.1) — drop bytes until
the two fixed header bytes appear; a trailing first-header byte is retained
because the second header byte may arrive in a later feed call. -/
def findHeader : List Nat → List Nat
  | [] => []
  | [b] => if b = headerByte0 then [b] else []
  | a :: b :: rest =>
    if a = headerByte0 ∧ b = headerByte1 then a :: b :: rest
    else findHeader (b :: rest)

theorem findHeader_length (l : List Nat) : (findHeader l).length ≤ l.length := by
  induction l with
  | nil => simp [findHeader]
  | cons a t ih =>
    cases t with
    | nil =>
      simp only [findHeader]
      split <;> simp
    | cons b rest =>
      rw [findHeader]
      split
      · exact le_refl _
      · exact le_trans ih (by simp)

/-- Modelled from the spec: the Framer's packet-extraction loop (§4.1).  Scan
for the header; once found, the length byte determines the expected total
size; when enough bytes are buffered, run `checkSum` over the whole candidate
frame: on success emit it as a ValidatedPacket and advance past it, on failure
discard it and resume scanning from the byte immediately after the discarded
header.  Returns the emitted packets together with the bytes retained for the
next feed call. -/
def extract (buf : List Nat) : List (List Nat) × List Nat :=
  match hs : findHeader buf with
  | a :: b :: len :: rest =>
    if len + 1 ≤ rest.length then
      if checkSum (a :: b :: len :: rest.take (len + 1)) then
        let res := extract (rest.drop (len + 1))
        ((a :: b :: len :: rest.take (len + 1)) :: res.1, res.2)
      else
        extract (len :: rest)
    else ([], a :: b :: len :: rest)
  | s => ([], s)
termination_by buf.length
decreasing_by
  all_goals
    have h := findHeader_length buf
    rw [hs] at h
    simp only [List.length_cons, List.length_drop] at *
    omega

/-- Modelled from the spec: one feed call of the Framer (§4.1) — append the
new bytes to the persistent RawFrame and extract every packet they complete. -/
def feed (st : List Nat) (bytes : List Nat) : List (List Nat) × List Nat :=
  extract (st ++ bytes)

/-- The wire packet layout of §6: header0, header1, length byte, payload bytes, checksum byte. -/
def packetBytes (len : Nat) (payload : List Nat) (cs : Nat) : List Nat :=
  headerByte0 :: headerByte1 :: len :: (payload ++ [cs])

/-- Modelled from the spec: the Odometry Engine's per-wheel tick delta
(§4.3 step 1).  The driver sources only declare `last_tick_left/right`
(kobuki.hpp lines 156-162) without the update code, so the definition follows
the spec sentence: the delta is `(current - last) mod 2^16` reinterpreted as a
signed 16-bit value (representatives at or above `2^15` count as negative). -/
def tickDelta (last cur : Nat) : Int :=
  if (cur % 65536 + 65536 - last % 65536) % 65536 < 32768 then
    ((cur % 65536 + 65536 - last % 65536) % 65536 : Nat)
  else
    ((cur % 65536 + 65536 - last % 65536) % 65536 : Nat) - 65536

/-- Calibration and configuration of the Odometry Engine (§4.3): the two device
calibration constants, the wheelbase, and the pose-integration trigonometric
functions, supplied as configuration to keep the model executable. -/
structure OdomConfig where
  tickToMm : ℚ
  tickToRad : ℚ
  bias : ℚ
  cosFn : ℚ → ℚ
  sinFn : ℚ → ℚ

/-- The EncoderState of §3 plus the driver's cumulative pose and last computed
velocities (kobuki.hpp lines 154-167 declare the corresponding fields). -/
structure OdomState where
  lastTickLeft : Nat
  lastTickRight : Nat
  lastTimestamp : ℚ
  lastMmLeft : ℚ
  lastMmRight : ℚ
  lastRadLeft : ℚ
  lastRadRight : ℚ
  poseX : ℚ
  poseY : ℚ
  heading : ℚ
  linearV : ℚ
  angularW : ℚ

/-- The OdometrySnapshot returned to consumers (§4.3 step 5). -/
structure OdomSnapshot where
  linearV : ℚ
  angularW : ℚ
  cumulativeX : ℚ
  cumulativeY : ℚ
  heading : ℚ

/-- The snapshot view of an odometry state. -/
def snapshotOf (s : OdomState) : OdomSnapshot :=
  ⟨s.linearV, s.angularW, s.poseX, s.poseY, s.heading⟩

/-- Modelled from the spec: the Odometry Engine onTickSample (§4.3); the
driver sources only declare the engine's fields, not the update code.  Steps:
signed wraparound tick deltas per wheel, tick-to-distance conversion, linear
displacement as the mean of the wheel distances and angular displacement as
their difference over the wheelbase, velocities as displacement over elapsed
time, then the state update and the returned snapshot.  A sample whose
elapsed time is zero or negative is discarded and the previous snapshot is
returned unchanged. -/
def onTickSample (cfg : OdomConfig) (s : OdomState) (leftTick rightTick : Nat)
    (ts : ℚ) : OdomState × OdomSnapshot :=
  let elapsed := ts - s.lastTimestamp
  if elapsed ≤ 0 then (s, snapshotOf s)
  else
    let dl := (tickDelta s.lastTickLeft leftTick : ℚ)
    let dr := (tickDelta s.lastTickRight rightTick : ℚ)
    let distL := dl * cfg.tickToMm
    let distR := dr * cfg.tickToMm
    let linDisp := (distL + distR) / 2
    let angDisp := (distR - distL) / (1000 * cfg.bias)
    let s' : OdomState :=
      { lastTickLeft := leftTick
        lastTickRight := rightTick
        lastTimestamp := ts
        lastMmLeft := s.lastMmLeft + distL
        lastMmRight := s.lastMmRight + distR
        lastRadLeft := s.lastRadLeft + dl * cfg.tickToRad
        lastRadRight := s.lastRadRight + dr * cfg.tickToRad
        poseX := s.poseX + (linDisp / 1000) * cfg.cosFn s.heading
        poseY := s.poseY + (linDisp / 1000) * cfg.sinFn s.heading
        heading := s.heading + angDisp
        linearV := linDisp / elapsed
        angularW := angDisp / elapsed }
    (s', snapshotOf s')

/-- Clamp a derived command value into the device's signed 16-bit range. -/
def clamp16 (x : ℤ) : ℤ :=
  max (-32768) (min 32767 x)

/-- Modelled from the spec: §4.4 — map (linear_v, angular_w) to the device's
native `(speed, radius)` pair in integer (millimetre-based) device units,
before clamping.  A zero angular rate selects the "straight" sentinel radius 0
with the speed derived from the linear rate; otherwise the radius is
`linear_v / angular_w` and the speed is the tangential speed at the outer
wheel (half a wheelbase beyond the turning radius). -/
def speedRadius (bias linearV angularW : ℚ) : ℤ × ℤ :=
  if angularW = 0 then (⌊1000 * linearV⌋, 0)
  else (⌊1000 * (linearV + |angularW| * bias / 2)⌋, ⌊1000 * (linearV / angularW)⌋)

/-- Severity of an emitted event, §7: domain errors (clamping) surface as
warnings, transport failures as errors. -/
inductive Alert where
  | warning : Alert
  | error : Alert

/-- Little-endian two-byte serialization of a clamped signed 16-bit value in
two's complement. -/
def int16Bytes (x : ℤ) : List Nat :=
  [(x % 65536).toNat % 256, (x % 65536).toNat / 256]

/-- Reinterpret an unsigned 16-bit wire value as a signed 16-bit value. -/
def toSigned16 (u : Nat) : ℤ :=
  if u % 65536 < 32768 then (u % 65536 : Nat) else ((u % 65536 : Nat) : Int) - 65536

/-- Type byte of the command sub-packet. -/
def commandSubType : Nat := 1

/-- Modelled from the spec: §4.4 — the Command Encoder.  Clamp the derived
`(speed, radius)` pair to the signed 16-bit range (reporting clamping as a
single warning, never an error), serialize it as the command sub-packet
`[type][length][speed lo][speed hi][radius lo][radius hi]`, and wrap it in a
full outbound packet whose checksum byte is the XOR of the length byte and
the payload — the same XOR scheme `checkSum` verifies on ingestion. -/
def encodeCommand (bias linearV angularW : ℚ) : List Nat × List Alert :=
  let sr := speedRadius bias linearV angularW
  let s := clamp16 sr.1
  let r := clamp16 sr.2
  let payload := commandSubType :: 4 :: (int16Bytes s ++ int16Bytes r)
  let len := payload.length
  let cs := List.foldl (· ^^^ ·) 0 (len :: payload)
  let alerts := if s = sr.1 ∧ r = sr.2 then ([] : List Alert) else [Alert.warning]
  (packetBytes len payload cs, alerts)

/-- Modelled from the spec: a command-sub-packet decoder — from a full packet
whose payload is one command sub-packet, recover the `(speed, radius)` pair. -/
def decodeCommand (p : List Nat) : Option (Int × Int) :=
  match p with
  | _ :: _ :: _ :: t :: _ :: sLo :: sHi :: rLo :: rHi :: [_] =>
    if t = commandSubType then
      some (toSigned16 (sLo + 256 * sHi), toSigned16 (rLo + 256 * rHi))
    else none
  | _ => none

/-- The Connection State Machine's states (§4.5). -/
inductive ConnState where
  | Closed : ConnState
  | Opening : ConnState
  | Running : ConnState
  | Stopping : ConnState
deriving DecidableEq

/-- Modelled from the spec: §4.5/§7 — Kobuki::sendCommand is gated on the
Running state: outside Running the write fails synchronously with a
"not connected" error, and nothing is appended to the channel's outbound byte
log (the log is returned unchanged only inside an `ok` result, so a rejected
write neither queues nor sends bytes). -/
def sendCommand (st : ConnState) (written : List Nat) (bytes : List Nat) :
    Except String (List Nat) :=
  if st = ConnState.Running then Except.ok (written ++ bytes)
  else Except.error "not connected"

end Kobuki

namespace KeyOp

/-- The two command velocity fields the teleop node mutates
(`cmd->linear.x` and `cmd->angular.z`). -/
structure Twist where
  linX : ℚ
  angZ : ℚ

/-- The four velocity parameters of `KeyOpCore` (keyop_core.cpp lines 38-41
give the defaults 0.1, 3.4, 0.02, 1.2). -/
structure Config where
  linear_vel_step : ℚ
  linear_vel_max : ℚ
  angular_vel_step : ℚ
  angular_vel_max : ℚ

/-- The mutable fields of `KeyOpCore` touched by the key handlers. -/
structure State where
  power_status : Bool
  accept_incoming : Bool
  quit_requested : Bool
  cmd : Twist

/-- Severity of a ROS log call made by a handler. -/
inductive Log where
  | info : Log
  | warn : Log

/-- One handler invocation: the successor state, the `Twist` messages
published on `cmd_vel` during the call (in order), and the log calls made. -/
structure Effect where
  state : State
  published : List Twist
  logs : List Log

/-- KeyOpCore::incrementLinearVelocity (keyop_core.cpp lines 339-350): when
powered, bump `linear.x` by one step iff it is still `<=` the maximum, log,
and publish the (possibly unchanged) command; otherwise only warn. -/
def incrementLinearVelocity (cfg : Config) (s : State) : Effect :=
  if s.power_status then
    let c := if s.cmd.linX ≤ cfg.linear_vel_max
      then { s.cmd with linX := s.cmd.linX + cfg.linear_vel_step } else s.cmd
    ⟨{ s with cmd := c }, [c], [Log.info]⟩
  else ⟨s, [], [Log.warn]⟩

/-- KeyOpCore::decrementLinearVelocity (keyop_core.cpp lines 355-366). -/
def decrementLinearVelocity (cfg : Config) (s : State) : Effect :=
  if s.power_status then
    let c := if -cfg.linear_vel_max ≤ s.cmd.linX
      then { s.cmd with linX := s.cmd.linX - cfg.linear_vel_step } else s.cmd
    ⟨{ s with cmd := c }, [c], [Log.info]⟩
  else ⟨s, [], [Log.warn]⟩

/-- KeyOpCore::incrementAngularVelocity (keyop_core.cpp lines 371-382). -/
def incrementAngularVelocity (cfg : Config) (s : State) : Effect :=
  if s.power_status then
    let c := if s.cmd.angZ ≤ cfg.angular_vel_max
      then { s.cmd with angZ := s.cmd.angZ + cfg.angular_vel_step } else s.cmd
    ⟨{ s with cmd := c }, [c], [Log.info]⟩
  else ⟨s, [], [Log.warn]⟩

/-- KeyOpCore::decrementAngularVelocity (keyop_core.cpp lines 387-398). -/
def decrementAngularVelocity (cfg : Config) (s : State) : Effect :=
  if s.power_status then
    let c := if -cfg.angular_vel_max ≤ s.cmd.angZ
      then { s.cmd with angZ := s.cmd.angZ - cfg.angular_vel_step } else s.cmd
    ⟨{ s with cmd := c }, [c], [Log.info]⟩
  else ⟨s, [], [Log.warn]⟩

/-- KeyOpCore::resetVelocity (keyop_core.cpp lines 400-409). -/
def resetVelocity (s : State) : Effect :=
  if s.power_status then
    ⟨{ s with cmd := ⟨0, 0⟩ }, [⟨0, 0⟩], [Log.info]⟩
  else ⟨s, [], [Log.warn]⟩

/-- KeyOpCore::disable (keyop_core.cpp lines 291-305): zero the command,
publish it, stop accepting remote input, and if powered drop power with an
info message (publishing the power command on the disable topic), otherwise
warn that the motors are already down. -/
def disable (s : State) : Effect :=
  let s1 : State := { s with cmd := ⟨0, 0⟩, accept_incoming := false }
  if s.power_status then ⟨{ s1 with power_status := false }, [⟨0, 0⟩], [Log.info]⟩
  else ⟨s1, [⟨0, 0⟩], [Log.warn]⟩

/-- KeyOpCore::enable (keyop_core.cpp lines 313-334): zero the command,
publish it, request the odometry reset, and power up if not yet powered (the
reset-odometry service call is an external collaborator, not modelled). -/
def enable (s : State) : Effect :=
  let s1 : State := { s with cmd := ⟨0, 0⟩, accept_incoming := false }
  if s.power_status then ⟨s1, [⟨0, 0⟩], [Log.info]⟩
  else ⟨{ s1 with power_status := true }, [⟨0, 0⟩], [Log.info]⟩

/-- The keys distinguished by KeyOpCore::processKeyboardInput. -/
inductive Key where
  | left : Key
  | right : Key
  | up : Key
  | down : Key
  | space : Key
  | q : Key
  | d : Key
  | e : Key
  | other : Key

/-- KeyOpCore::processKeyboardInput (keyop_core.cpp lines 232-278). -/
def processKeyboardInput (cfg : Config) (s : State) (k : Key) : Effect :=
  match k with
  | Key.left => incrementAngularVelocity cfg s
  | Key.right => decrementAngularVelocity cfg s
  | Key.up => incrementLinearVelocity cfg s
  | Key.down => decrementLinearVelocity cfg s
  | Key.space => resetVelocity s
  | Key.q => ⟨{ s with quit_requested := true }, [], []⟩
  | Key.d => disable s
  | Key.e => enable s
  | Key.other => ⟨s, [], []⟩

/-- Run a sequence of keyboard inputs, keeping only the evolving state. -/
def runKeys (cfg : Config) (s : State) (ks : List Key) : State :=
  ks.foldl (fun st k => (processKeyboardInput cfg st k).state) s

/-- The state after KeyOpCore::init: zero command velocities, power not yet
confirmed (the constructor at keyop_core.cpp lines 32-48 starts with
`power_status(false)` and `accept_incoming(true)`). -/
def initState : State :=
  ⟨false, true, false, ⟨0, 0⟩⟩

/-- The command velocities stay within one step beyond the configured maxima
(the invariant maintained by the non-strict guards of the key handlers). -/
def Bounded (cfg : Config) (s : State) : Prop :=
  -(cfg.linear_vel_max + cfg.linear_vel_step) ≤ s.cmd.linX ∧
    s.cmd.linX ≤ cfg.linear_vel_max + cfg.linear_vel_step ∧
    -(cfg.angular_vel_max + cfg.angular_vel_step) ≤ s.cmd.angZ ∧
    s.cmd.angZ ≤ cfg.angular_vel_max + cfg.angular_vel_step

end KeyOp

/-!
Theorems.  Helper lemmas come first; each claim is settled by exactly one
theorem, marked with its claim id in the doc comment, with a closed witness
instantiation following it where the claim theorem carries hypotheses.
-/

namespace Kobuki

theorem foldl_xor_eq (l : List Nat) : ∀ a : Nat,
    List.foldl (· ^^^ ·) a l = a ^^^ l.foldr (· ^^^ ·) 0 := by
  induction l with
  | nil => intro a; simp
  | cons b t ih =>
    intro a
    simp only [List.foldl_cons, List.foldr_cons]
    rw [ih (a ^^^ b), Nat.xor_assoc]

theorem checkSum_true_iff (buffer : List Nat) :
    checkSum buffer = true ↔ xorFromTwo buffer = 0 := by
  simp [checkSum, xorFromTwo, foldl_xor_eq]

theorem extract_nil : extract [] = ([], []) := by
  rw [extract.eq_def]
  simp [findHeader]

theorem extract_incomplete (buf : List Nat)
    (h : ∀ a b len rest, findHeader buf = a :: b :: len :: rest → rest.length < len + 1) :
    extract buf = ([], findHeader buf) := by
  rw [extract.eq_def]
  split
  · rename_i a b len1 rest hs
    have hlt := h _ _ _ _ hs
    rw [if_neg (by omega), hs]
  · rfl

theorem extract_step_ok (buf : List Nat) (a b len : Nat) (rest : List Nat)
    (hs : findHeader buf = a :: b :: len :: rest)
    (hle : len + 1 ≤ rest.length)
    (hcs : checkSum (a :: b :: len :: rest.take (len + 1)) = true) :
    extract buf = ((a :: b :: len :: rest.take (len + 1)) :: (extract (rest.drop (len + 1))).1,
      (extract (rest.drop (len + 1))).2) := by
  rw [extract.eq_def]
  split
  · rename_i a' b' l' r' hs'
    rw [hs] at hs'
    injection hs' with e1 hs'
    injection hs' with e2 hs'
    injection hs' with e3 e4
    subst e1; subst e2; subst e3; subst e4
    rw [if_pos hle, if_pos hcs]
  · rename_i hcontra
    exact (hcontra _ _ _ _ hs).elim

theorem extract_step_bad (buf : List Nat) (a b len : Nat) (rest : List Nat)
    (hs : findHeader buf = a :: b :: len :: rest)
    (hle : len + 1 ≤ rest.length)
    (hcs : ¬ checkSum (a :: b :: len :: rest.take (len + 1)) = true) :
    extract buf = extract (len :: rest) := by
  rw [extract.eq_def]
  split
  · rename_i a' b' l' r' hs'
    rw [hs] at hs'
    injection hs' with e1 hs'
    injection hs' with e2 hs'
    injection hs' with e3 e4
    subst e1; subst e2; subst e3; subst e4
    rw [if_pos hle, if_neg hcs]
  · rename_i hcontra
    exact (hcontra _ _ _ _ hs).elim

theorem extract_sound : ∀ buf, ∀ p ∈ (extract buf).1, checkSum p = true := by
  intro buf
  induction buf using extract.induct with
  | case1 x a b len rest hs hle hcs ih =>
    rw [extract_step_ok x a b len rest hs hle hcs]
    intro p hp
    rcases List.mem_cons.mp hp with rfl | hp'
    · exact hcs
    · exact ih p hp'
  | case2 x a b len rest hs hle hcs ih =>
    rw [extract_step_bad x a b len rest hs hle hcs]
    exact ih
  | case3 x a b len rest hs hle =>
    have hcond : ∀ a' b' l' r', findHeader x = a' :: b' :: l' :: r' → r'.length < l' + 1 := by
      intro a' b' l' r' hs'
      rw [hs] at hs'
      injection hs' with e1 hs'
      injection hs' with e2 hs'
      injection hs' with e3 e4
      subst e3; subst e4
      omega
    rw [extract_incomplete x hcond]
    simp
  | case4 x hnone =>
    have hcond : ∀ a' b' l' r', findHeader x = a' :: b' :: l' :: r' → r'.length < l' + 1 := by
      intro a' b' l' r' hs'
      exact (hnone _ _ _ _ hs').elim
    rw [extract_incomplete x hcond]
    simp

/-- Claim C1: PacketFinder::checkSum returns true if and only if the XOR of
all bytes of the buffer from index 2 through the last byte inclusive equals
zero; accordingly every ValidatedPacket the Framer produces passes that
check, so a packet is validated exactly when that XOR is zero. -/
theorem checkSum_true_iff_xor_from_two_zero :
    (∀ buffer : List Nat, checkSum buffer = true ↔ xorFromTwo buffer = 0) ∧
      ∀ buf, ∀ p ∈ (extract buf).1, checkSum p = true :=
  ⟨checkSum_true_iff, extract_sound⟩

theorem extract_wellformed (len : Nat) (payload : List Nat) (cs : Nat)
    (hlen : payload.length = len)
    (hcs : checkSum (packetBytes len payload cs) = true) :
    extract (packetBytes len payload cs) = ([packetBytes len payload cs], []) := by
  have hfh : findHeader (packetBytes len payload cs) = packetBytes len payload cs := by
    simp [packetBytes, findHeader, headerByte0, headerByte1]
  have hlen2 : (payload ++ [cs]).length = len + 1 := by simp [hlen]
  have htake : (payload ++ [cs]).take (len + 1) = payload ++ [cs] := by
    rw [← hlen2]; simp
  have hdrop : (payload ++ [cs]).drop (len + 1) = [] := by
    rw [← hlen2]; simp
  rw [extract.eq_def]
  rw [show (packetBytes len payload cs) =
    headerByte0 :: headerByte1 :: len :: (payload ++ [cs]) from rfl] at hfh hcs ⊢
  split
  · rename_i a b len1 rest hs
    rw [hfh] at hs
    obtain ⟨rfl, rfl, rfl, rfl⟩ :
        a = headerByte0 ∧ b = headerByte1 ∧ len1 = len ∧ rest = payload ++ [cs] := by
      injection hs with h1 hs
      injection hs with h2 hs
      injection hs with h3 h4
      exact ⟨h1.symm, h2.symm, h3.symm, h4.symm⟩
    simp only [hlen2, le_refl, htake, hcs, if_true, hdrop, extract_nil]
  · rename_i hcontra
    exact (hcontra _ _ _ _ hfh).elim

/-- Witness for claim C1 at a concrete valid packet. -/
theorem checkSum_true_iff_xor_from_two_zero_witness :
    (checkSum [170, 85, 1, 7, 6] = true ↔ xorFromTwo [170, 85, 1, 7, 6] = 0) ∧
      checkSum (packetBytes 0 [] 0) = true :=
  ⟨checkSum_true_iff_xor_from_two_zero.1 [170, 85, 1, 7, 6],
    checkSum_true_iff_xor_from_two_zero.2 (packetBytes 0 [] 0) (packetBytes 0 [] 0)
      (by rw [extract_wellformed 0 [] 0 rfl (by decide)]; exact List.mem_singleton.mpr rfl)⟩

theorem set_drop_two : ∀ (l : List Nat) (j : Nat) (b : Nat),
    (l.set (j + 2) b).drop 2 = (l.drop 2).set j b := by
  intro l
  match l with
  | [] => intro j b; simp
  | [a] => intro j b; simp
  | a :: c :: t => intro j b; simp [List.set]

theorem foldr_xor_set : ∀ (l : List Nat) (j : Nat) (b : Nat) (h : j < l.length),
    (l.set j b).foldr (· ^^^ ·) 0 =
      l.foldr (· ^^^ ·) 0 ^^^ l.get ⟨j, h⟩ ^^^ b := by
  intro l
  induction l with
  | nil => intro j b h; simp at h
  | cons a t ih =>
    intro j b h
    cases j with
    | zero =>
      simp only [List.set, List.foldr_cons, List.get]
      rw [Nat.xor_comm a (List.foldr (· ^^^ ·) 0 t),
        Nat.xor_assoc (List.foldr (· ^^^ ·) 0 t) a a,
        Nat.xor_self, Nat.xor_zero, Nat.xor_comm (List.foldr (· ^^^ ·) 0 t) b]
    | succ j =>
      have hj : j < t.length := by simpa using h
      simp only [List.set, List.foldr_cons, List.get]
      rw [ih j b hj]
      simp [Nat.xor_assoc]

theorem get_drop_two : ∀ (l : List Nat) (j : Nat) (h : j + 2 < l.length),
    (l.drop 2).get ⟨j, by simpa [Nat.lt_sub_iff_add_lt] using h⟩ = l.get ⟨j + 2, h⟩ := by
  intro l j h
  match l with
  | a :: c :: t => simp

/-- Claim C2: for a buffer that passes checkSum, replacing the byte at any
index at least 2 by a different value yields a buffer that checkSum rejects. -/
theorem checkSum_single_byte_corruption (buf : List Nat) (i : Nat) (b : Nat)
    (hv : checkSum buf = true) (h2 : 2 ≤ i) (hi : i < buf.length)
    (hb : b ≠ buf.get ⟨i, hi⟩) :
    checkSum (buf.set i b) = false := by
  obtain ⟨j, rfl⟩ : ∃ j, i = j + 2 := ⟨i - 2, by omega⟩
  have hj : j < (buf.drop 2).length := by simp; omega
  rw [checkSum_true_iff] at hv
  have hx : xorFromTwo (buf.set (j + 2) b) =
      xorFromTwo buf ^^^ (buf.drop 2).get ⟨j, hj⟩ ^^^ b := by
    unfold xorFromTwo
    rw [set_drop_two, foldr_xor_set (buf.drop 2) j b hj]
  rw [get_drop_two buf j hi] at hx
  by_contra hfalse
  have htrue : checkSum (buf.set (j + 2) b) = true := by
    cases hcs : checkSum (buf.set (j + 2) b)
    · exact absurd hcs hfalse
    · rfl
  rw [checkSum_true_iff, hx, hv, Nat.zero_xor] at htrue
  exact hb (Nat.xor_eq_zero.mp htrue).symm

/-- Witness for claim C2: corrupting byte 3 of a concrete valid packet. -/
theorem checkSum_single_byte_corruption_witness :
    checkSum [170, 85, 0, 5, 5] = true ∧ 2 ≤ 3 ∧
      3 < ([170, 85, 0, 5, 5] : List Nat).length ∧
      (4 : Nat) ≠ ([170, 85, 0, 5, 5] : List Nat).get ⟨3, by decide⟩ ∧
      checkSum (([170, 85, 0, 5, 5] : List Nat).set 3 4) = false :=
  ⟨by decide, by decide, by decide, by decide,
    checkSum_single_byte_corruption [170, 85, 0, 5, 5] 3 4
      (by decide) (by decide) (by decide) (by decide)⟩

/-- Claim C3: the odometry tick delta is (current - last) mod 2^16
reinterpreted as a signed 16-bit value: it is congruent to the true difference
modulo 2^16 and lies in the signed 16-bit range; in particular last 65530 with
current 10 gives 16, and last 10 with current 65530 gives -16. -/
theorem tickDelta_signed_wraparound :
    (∀ last cur : Nat,
        (tickDelta last cur - ((cur : Int) - (last : Int))) % 65536 = 0 ∧
        -32768 ≤ tickDelta last cur ∧ tickDelta last cur < 32768) ∧
      tickDelta 65530 10 = 16 ∧ tickDelta 10 65530 = -16 := by
  refine ⟨?_, by decide, by decide⟩
  intro last cur
  unfold tickDelta
  split <;> refine ⟨by omega, by omega, by omega⟩

/-- Claim C4: an odometry sample whose elapsed time is zero or negative is
discarded — the engine state and the returned snapshot are the previous ones,
unchanged, and the velocity divisions by the elapsed time are not reached. -/
theorem onTickSample_nonpositive_elapsed_unchanged (cfg : OdomConfig)
    (s : OdomState) (leftTick rightTick : Nat) (ts : ℚ)
    (h : ts - s.lastTimestamp ≤ 0) :
    onTickSample cfg s leftTick rightTick ts = (s, snapshotOf s) := by
  simp only [onTickSample]
  rw [if_pos h]

/-- Witness for claim C4 at a concrete stale sample. -/
theorem onTickSample_nonpositive_elapsed_unchanged_witness :
    ((0 : ℚ) - (⟨0, 0, 0, 0, 0, 0, 0, 0, 0, 0, 0, 0⟩ : OdomState).lastTimestamp ≤ 0) ∧
      onTickSample ⟨1, 1, 1, fun _ => 1, fun _ => 0⟩
          ⟨0, 0, 0, 0, 0, 0, 0, 0, 0, 0, 0, 0⟩ 0 0 0 =
        (⟨0, 0, 0, 0, 0, 0, 0, 0, 0, 0, 0, 0⟩,
          snapshotOf ⟨0, 0, 0, 0, 0, 0, 0, 0, 0, 0, 0, 0⟩) :=
  ⟨by norm_num,
    onTickSample_nonpositive_elapsed_unchanged ⟨1, 1, 1, fun _ => 1, fun _ => 0⟩
      ⟨0, 0, 0, 0, 0, 0, 0, 0, 0, 0, 0, 0⟩ 0 0 0 (by norm_num)⟩

theorem findHeader_packet_take (len : Nat) (payload : List Nat) (cs : Nat) (i : Nat) :
    findHeader ((packetBytes len payload cs).take i) = (packetBytes len payload cs).take i := by
  match i with
  | 0 => simp [findHeader]
  | 1 => simp [packetBytes, findHeader]
  | (j+2) => simp [packetBytes, findHeader, headerByte0, headerByte1]

theorem extract_packet_take (len : Nat) (payload : List Nat) (cs : Nat) (i : Nat)
    (hlen : payload.length = len) (hi : i < (packetBytes len payload cs).length) :
    extract ((packetBytes len payload cs).take i) =
      ([], (packetBytes len payload cs).take i) := by
  have hfh := findHeader_packet_take len payload cs i
  rw [extract_incomplete _ ?_, hfh]
  intro a b len1 rest hs
  rw [hfh] at hs
  match i, hs with
  | 0, hs => simp [packetBytes] at hs
  | 1, hs => simp [packetBytes] at hs
  | 2, hs => simp [packetBytes] at hs
  | (j+3), hs =>
    have hplen : (packetBytes len payload cs).length = len + 4 := by
      simp [packetBytes, hlen]
    have hj : j < len + 1 := by omega
    have hs2 : headerByte0 :: headerByte1 :: len :: (payload ++ [cs]).take j
        = a :: b :: len1 :: rest := by
      rw [← hs]; simp [packetBytes]
    injection hs2 with h1 hs2
    injection hs2 with h2 hs2
    injection hs2 with h3 h4
    subst h3
    rw [← h4]
    simp [hlen]
    omega

theorem extract_split_packet (len : Nat) (payload : List Nat) (cs : Nat) (i : Nat)
    (hlen : payload.length = len)
    (hcs : checkSum (packetBytes len payload cs) = true)
    (hi : i ≤ (packetBytes len payload cs).length) :
    ((extract ((packetBytes len payload cs).take i)).1 ++
      (extract ((extract ((packetBytes len payload cs).take i)).2 ++
        (packetBytes len payload cs).drop i)).1,
     (extract ((extract ((packetBytes len payload cs).take i)).2 ++
        (packetBytes len payload cs).drop i)).2) =
    extract (packetBytes len payload cs) := by
  rcases Nat.lt_or_ge i (packetBytes len payload cs).length with hlt | hge
  · rw [extract_packet_take len payload cs i hlen hlt]
    simp only [List.take_append_drop]
    rw [extract_wellformed len payload cs hlen hcs]
    simp
  · have hieq : i = (packetBytes len payload cs).length := le_antisymm hi hge
    subst hieq
    rw [List.take_length, List.drop_length]
    rw [extract_wellformed len payload cs hlen hcs]
    simp [extract_nil]

/-- Claim C5: feeding a valid packet split at any point across two feed calls
yields the same sequence of ValidatedPacket (and the same retained buffer) as
feeding the whole packet in one call. -/
theorem feed_split_packet_eq_whole (len : Nat) (payload : List Nat) (cs : Nat) (i : Nat)
    (hlen : payload.length = len)
    (hcs : checkSum (packetBytes len payload cs) = true)
    (hi : i ≤ (packetBytes len payload cs).length) :
    (feed [] ((packetBytes len payload cs).take i)).1 ++
        (feed (feed [] ((packetBytes len payload cs).take i)).2
          ((packetBytes len payload cs).drop i)).1 =
      (feed [] (packetBytes len payload cs)).1 ∧
    (feed (feed [] ((packetBytes len payload cs).take i)).2
        ((packetBytes len payload cs).drop i)).2 =
      (feed [] (packetBytes len payload cs)).2 := by
  have h := extract_split_packet len payload cs i hlen hcs hi
  constructor
  · have h1 := congrArg Prod.fst h
    simpa [feed] using h1
  · have h2 := congrArg Prod.snd h
    simpa [feed] using h2

/-- Witness for claim C5: a concrete valid packet split after its header. -/
theorem feed_split_packet_eq_whole_witness :
    ([7] : List Nat).length = 1 ∧
      checkSum (packetBytes 1 [7] 6) = true ∧
      2 ≤ (packetBytes 1 [7] 6).length ∧
      (feed [] ((packetBytes 1 [7] 6).take 2)).1 ++
          (feed (feed [] ((packetBytes 1 [7] 6).take 2)).2
            ((packetBytes 1 [7] 6).drop 2)).1 =
        (feed [] (packetBytes 1 [7] 6)).1 :=
  ⟨rfl, by decide, by decide,
    (feed_split_packet_eq_whole 1 [7] 6 2 rfl (by decide) (by decide)).1⟩

theorem toSigned16_int16Bytes (x : ℤ) (h1 : -32768 ≤ x) (h2 : x ≤ 32767) :
    toSigned16 ((x % 65536).toNat % 256 + 256 * ((x % 65536).toNat / 256)) = x := by
  have hu : (x % 65536).toNat % 256 + 256 * ((x % 65536).toNat / 256) = (x % 65536).toNat := by
    omega
  rw [hu]
  unfold toSigned16
  split <;> omega

theorem clamp16_bounds (x : ℤ) : -32768 ≤ clamp16 x ∧ clamp16 x ≤ 32767 := by
  unfold clamp16
  omega

theorem foldl_xor_concat (l : List Nat) (c : Nat) :
    List.foldl (· ^^^ ·) 0 (l ++ [c]) = List.foldl (· ^^^ ·) 0 l ^^^ c := by
  rw [List.foldl_append]
  rfl

theorem checkSum_packetBytes_csum (payload : List Nat) :
    checkSum (packetBytes payload.length payload
      (List.foldl (· ^^^ ·) 0 (payload.length :: payload))) = true := by
  show (List.foldl (· ^^^ ·) 0 ((payload.length :: payload) ++
    [List.foldl (· ^^^ ·) 0 (payload.length :: payload)]) == 0) = true
  rw [foldl_xor_concat, Nat.xor_self]
  rfl

theorem checkSum_encode (bias linearV angularW : ℚ) :
    checkSum (encodeCommand bias linearV angularW).1 = true := by
  simp only [encodeCommand]
  exact checkSum_packetBytes_csum _

/-- Claim C6: encoding a velocity command produces a full packet (header,
length, command sub-packet payload, checksum under the ingestion XOR scheme)
that the Framer validates and emits whole from an empty state, and the
command-sub-packet decoder recovers exactly the clamped (speed, radius) pair
that was serialized. -/
theorem encodeCommand_decode_roundtrip (bias linearV angularW : ℚ) :
    feed [] (encodeCommand bias linearV angularW).1 =
        ([(encodeCommand bias linearV angularW).1], []) ∧
      decodeCommand (encodeCommand bias linearV angularW).1 =
        some (clamp16 (speedRadius bias linearV angularW).1,
          clamp16 (speedRadius bias linearV angularW).2) := by
  constructor
  · simp only [feed, List.nil_append]
    simp only [encodeCommand]
    exact extract_wellformed _ _ _ rfl (checkSum_encode bias linearV angularW)
  · unfold encodeCommand decodeCommand
    simp only [packetBytes, int16Bytes, List.cons_append, List.nil_append]
    rw [if_pos trivial]
    have b1 := clamp16_bounds (speedRadius bias linearV angularW).1
    have b2 := clamp16_bounds (speedRadius bias linearV angularW).2
    rw [toSigned16_int16Bytes _ b1.1 b1.2, toSigned16_int16Bytes _ b2.1 b2.2]

theorem encode_clamp_facts (bias linearV angularW : ℚ) :
    (-32768 ≤ clamp16 (speedRadius bias linearV angularW).1 ∧
      clamp16 (speedRadius bias linearV angularW).1 ≤ 32767 ∧
      -32768 ≤ clamp16 (speedRadius bias linearV angularW).2 ∧
      clamp16 (speedRadius bias linearV angularW).2 ≤ 32767) ∧
    (∀ a ∈ (encodeCommand bias linearV angularW).2, a = Alert.warning) ∧
    (encodeCommand bias linearV angularW).2.length ≤ 1 ∧
    (32767 < (speedRadius bias linearV angularW).1 →
      (encodeCommand bias linearV angularW).2 = [Alert.warning]) := by
  refine ⟨⟨(clamp16_bounds _).1, (clamp16_bounds _).2,
    (clamp16_bounds _).1, (clamp16_bounds _).2⟩, ?_, ?_, ?_⟩
  · simp only [encodeCommand]
    split
    · simp
    · simp
  · simp only [encodeCommand]
    split
    · simp
    · simp
  · intro hbig
    simp only [encodeCommand]
    rw [if_neg ?_]
    rintro ⟨h1, -⟩
    have := clamp16_bounds (speedRadius bias linearV angularW).1
    omega

theorem encode_concrete_clamp :
    clamp16 (speedRadius 0.23 1000 0).1 = 32767 ∧
      (encodeCommand 0.23 1000 0).2 = [Alert.warning] := by
  have hsr : speedRadius 0.23 1000 0 = (1000000, 0) := by
    simp only [speedRadius, if_pos rfl]
    norm_num
  constructor
  · rw [hsr]
    norm_num [clamp16]
  · simp only [encodeCommand, hsr]
    rw [if_neg ?_]
    rintro ⟨h1, -⟩
    norm_num [clamp16] at h1

/-- Claim C7: the derived (speed, radius) pair is clamped into the signed
16-bit range before serialization; every alert an encode call raises is a
warning (never an error) and at most one is raised; an out-of-range speed
raises the warning exactly once; the absurdly large linear_v = 1000 command
is clamped to the documented maximum 32767 with exactly one warning. -/
theorem encodeCommand_clamping_warning (bias linearV angularW : ℚ) :
    (-32768 ≤ clamp16 (speedRadius bias linearV angularW).1 ∧
      clamp16 (speedRadius bias linearV angularW).1 ≤ 32767 ∧
      -32768 ≤ clamp16 (speedRadius bias linearV angularW).2 ∧
      clamp16 (speedRadius bias linearV angularW).2 ≤ 32767) ∧
    (∀ a ∈ (encodeCommand bias linearV angularW).2, a = Alert.warning) ∧
    (encodeCommand bias linearV angularW).2.length ≤ 1 ∧
    (32767 < (speedRadius bias linearV angularW).1 →
      (encodeCommand bias linearV angularW).2 = [Alert.warning]) ∧
    clamp16 (speedRadius 0.23 1000 0).1 = 32767 ∧
    (encodeCommand 0.23 1000 0).2 = [Alert.warning] :=
  ⟨(encode_clamp_facts bias linearV angularW).1,
    (encode_clamp_facts bias linearV angularW).2.1,
    (encode_clamp_facts bias linearV angularW).2.2.1,
    (encode_clamp_facts bias linearV angularW).2.2.2,
    encode_concrete_clamp.1, encode_concrete_clamp.2⟩

/-- Witness for claim C7 at the concrete out-of-range command. -/
theorem encodeCommand_clamping_warning_witness :
    clamp16 (speedRadius 0.23 1000 0).1 = 32767 ∧
      (encodeCommand 0.23 1000 0).2 = [Alert.warning] :=
  ⟨(encodeCommand_clamping_warning 0.23 1000 0).2.2.2.2.1,
    (encodeCommand_clamping_warning 0.23 1000 0).2.2.2.2.2⟩

/-- Claim C8: a command write attempted while the connection state is not
Running is rejected synchronously with the "not connected" error — it is not
queued and no bytes reach the channel (the outbound log is only extended
inside an ok result). -/
theorem sendCommand_rejected_when_not_running (st : ConnState)
    (written bytes : List Nat) (h : st ≠ ConnState.Running) :
    sendCommand st written bytes = Except.error "not connected" := by
  simp [sendCommand, h]

/-- Witness for claim C8 in the Closed state. -/
theorem sendCommand_rejected_when_not_running_witness :
    ConnState.Closed ≠ ConnState.Running ∧
      sendCommand ConnState.Closed [] [255] = Except.error "not connected" :=
  ⟨by decide, sendCommand_rejected_when_not_running ConnState.Closed [] [255] (by decide)⟩

end Kobuki

namespace KeyOp

/-- Claim C9: with power_status false, each of the five velocity operations of
the teleop node leaves the whole state (including cmd) unchanged, publishes
nothing, and emits exactly one warning. -/
theorem keyop_ops_noop_when_power_off (cfg : Config) (s : State)
    (h : s.power_status = false) :
    incrementLinearVelocity cfg s = ⟨s, [], [Log.warn]⟩ ∧
    decrementLinearVelocity cfg s = ⟨s, [], [Log.warn]⟩ ∧
    incrementAngularVelocity cfg s = ⟨s, [], [Log.warn]⟩ ∧
    decrementAngularVelocity cfg s = ⟨s, [], [Log.warn]⟩ ∧
    resetVelocity s = ⟨s, [], [Log.warn]⟩ := by
  refine ⟨?_, ?_, ?_, ?_, ?_⟩ <;>
    simp [incrementLinearVelocity, decrementLinearVelocity, incrementAngularVelocity,
      decrementAngularVelocity, resetVelocity, h]

/-- Witness for claim C9 at a concrete powered-down state. -/
theorem keyop_ops_noop_when_power_off_witness :
    incrementLinearVelocity ⟨0.1, 3.4, 0.02, 1.2⟩ ⟨false, true, false, ⟨1, 1⟩⟩ =
        ⟨⟨false, true, false, ⟨1, 1⟩⟩, [], [Log.warn]⟩ ∧
      decrementLinearVelocity ⟨0.1, 3.4, 0.02, 1.2⟩ ⟨false, true, false, ⟨1, 1⟩⟩ =
        ⟨⟨false, true, false, ⟨1, 1⟩⟩, [], [Log.warn]⟩ ∧
      incrementAngularVelocity ⟨0.1, 3.4, 0.02, 1.2⟩ ⟨false, true, false, ⟨1, 1⟩⟩ =
        ⟨⟨false, true, false, ⟨1, 1⟩⟩, [], [Log.warn]⟩ ∧
      decrementAngularVelocity ⟨0.1, 3.4, 0.02, 1.2⟩ ⟨false, true, false, ⟨1, 1⟩⟩ =
        ⟨⟨false, true, false, ⟨1, 1⟩⟩, [], [Log.warn]⟩ ∧
      resetVelocity ⟨false, true, false, ⟨1, 1⟩⟩ =
        ⟨⟨false, true, false, ⟨1, 1⟩⟩, [], [Log.warn]⟩ :=
  keyop_ops_noop_when_power_off ⟨0.1, 3.4, 0.02, 1.2⟩ ⟨false, true, false, ⟨1, 1⟩⟩ rfl

theorem incLin_bounded (cfg : Config)
    (h1 : 0 ≤ cfg.linear_vel_step) (s : State) (hs : Bounded cfg s) :
    Bounded cfg (incrementLinearVelocity cfg s).state := by
  unfold Bounded at hs ⊢
  obtain ⟨hl1, hl2, ha1, ha2⟩ := hs
  simp only [incrementLinearVelocity]
  split_ifs with hp hle <;> refine ⟨?_, ?_, ?_, ?_⟩ <;> simp <;> linarith

theorem decLin_bounded (cfg : Config)
    (h1 : 0 ≤ cfg.linear_vel_step) (s : State) (hs : Bounded cfg s) :
    Bounded cfg (decrementLinearVelocity cfg s).state := by
  unfold Bounded at hs ⊢
  obtain ⟨hl1, hl2, ha1, ha2⟩ := hs
  simp only [decrementLinearVelocity]
  split_ifs with hp hle <;> refine ⟨?_, ?_, ?_, ?_⟩ <;> simp <;> linarith

theorem incAng_bounded (cfg : Config)
    (h3 : 0 ≤ cfg.angular_vel_step) (s : State) (hs : Bounded cfg s) :
    Bounded cfg (incrementAngularVelocity cfg s).state := by
  unfold Bounded at hs ⊢
  obtain ⟨hl1, hl2, ha1, ha2⟩ := hs
  simp only [incrementAngularVelocity]
  split_ifs with hp hle <;> refine ⟨?_, ?_, ?_, ?_⟩ <;> simp <;> linarith

theorem decAng_bounded (cfg : Config)
    (h3 : 0 ≤ cfg.angular_vel_step) (s : State) (hs : Bounded cfg s) :
    Bounded cfg (decrementAngularVelocity cfg s).state := by
  unfold Bounded at hs ⊢
  obtain ⟨hl1, hl2, ha1, ha2⟩ := hs
  simp only [decrementAngularVelocity]
  split_ifs with hp hle <;> refine ⟨?_, ?_, ?_, ?_⟩ <;> simp <;> linarith

theorem zeroCmd_bounded (cfg : Config)
    (h1 : 0 ≤ cfg.linear_vel_step) (h2 : 0 ≤ cfg.linear_vel_max)
    (h3 : 0 ≤ cfg.angular_vel_step) (h4 : 0 ≤ cfg.angular_vel_max)
    (s : State) (hz : s.cmd = ⟨0, 0⟩) : Bounded cfg s := by
  unfold Bounded
  rw [hz]
  refine ⟨?_, ?_, ?_, ?_⟩ <;> simp <;> linarith

theorem step_bounded (cfg : Config)
    (h1 : 0 ≤ cfg.linear_vel_step) (h2 : 0 ≤ cfg.linear_vel_max)
    (h3 : 0 ≤ cfg.angular_vel_step) (h4 : 0 ≤ cfg.angular_vel_max)
    (s : State) (k : Key) (hs : Bounded cfg s) :
    Bounded cfg (processKeyboardInput cfg s k).state := by
  cases k with
  | left => exact incAng_bounded cfg h3 s hs
  | right => exact decAng_bounded cfg h3 s hs
  | up => exact incLin_bounded cfg h1 s hs
  | down => exact decLin_bounded cfg h1 s hs
  | space =>
    simp only [processKeyboardInput, resetVelocity]
    split_ifs with hp
    · exact zeroCmd_bounded cfg h1 h2 h3 h4 _ rfl
    · exact hs
  | q => exact hs
  | d =>
    simp only [processKeyboardInput, disable]
    split_ifs with hp <;> exact zeroCmd_bounded cfg h1 h2 h3 h4 _ rfl
  | e =>
    simp only [processKeyboardInput, enable]
    split_ifs with hp <;> exact zeroCmd_bounded cfg h1 h2 h3 h4 _ rfl
  | other => exact hs

theorem runKeys_bounded (cfg : Config)
    (h1 : 0 ≤ cfg.linear_vel_step) (h2 : 0 ≤ cfg.linear_vel_max)
    (h3 : 0 ≤ cfg.angular_vel_step) (h4 : 0 ≤ cfg.angular_vel_max) :
    ∀ (ks : List Key) (s : State), Bounded cfg s → Bounded cfg (runKeys cfg s ks) := by
  intro ks
  induction ks with
  | nil => intro s hs; exact hs
  | cons k ks ih =>
    intro s hs
    exact ih _ (step_bounded cfg h1 h2 h3 h4 s k hs)

/-- Claim C10: the increment guards compare non-strictly against the maxima,
so starting from zero velocities any sequence of keyboard operations keeps
the absolute linear command within linear_vel_max + linear_vel_step and the
absolute angular command within angular_vel_max + angular_vel_step; and a
single increment taken exactly at the maximum lands one full step above it. -/
theorem keyop_velocity_bounded_by_max_plus_step (cfg : Config) (ks : List Key)
    (h1 : 0 ≤ cfg.linear_vel_step) (h2 : 0 ≤ cfg.linear_vel_max)
    (h3 : 0 ≤ cfg.angular_vel_step) (h4 : 0 ≤ cfg.angular_vel_max) :
    (|(runKeys cfg initState ks).cmd.linX| ≤ cfg.linear_vel_max + cfg.linear_vel_step ∧
      |(runKeys cfg initState ks).cmd.angZ| ≤ cfg.angular_vel_max + cfg.angular_vel_step) ∧
    ∀ s : State, s.power_status = true → s.cmd.linX = cfg.linear_vel_max →
      (incrementLinearVelocity cfg s).state.cmd.linX =
        cfg.linear_vel_max + cfg.linear_vel_step := by
  constructor
  · have hinit : Bounded cfg initState := by
      unfold Bounded initState
      refine ⟨?_, ?_, ?_, ?_⟩ <;> simp <;> linarith
    obtain ⟨a, b, c, d⟩ := runKeys_bounded cfg h1 h2 h3 h4 ks initState hinit
    exact ⟨abs_le.mpr ⟨a, b⟩, abs_le.mpr ⟨c, d⟩⟩
  · intro s hp hmax
    simp [incrementLinearVelocity, hp, hmax]

/-- Witness for claim C10 with the default parameters and a short key run. -/
theorem keyop_velocity_bounded_by_max_plus_step_witness :
    (0 : ℚ) ≤ (0.1 : ℚ) ∧ (0 : ℚ) ≤ (3.4 : ℚ) ∧ (0 : ℚ) ≤ (0.02 : ℚ) ∧ (0 : ℚ) ≤ (1.2 : ℚ) ∧
      (|(runKeys ⟨0.1, 3.4, 0.02, 1.2⟩ initState [Key.e, Key.up, Key.up]).cmd.linX| ≤
          (3.4 : ℚ) + 0.1 ∧
        |(runKeys ⟨0.1, 3.4, 0.02, 1.2⟩ initState [Key.e, Key.up, Key.up]).cmd.angZ| ≤
          (1.2 : ℚ) + 0.02) :=
  ⟨by norm_num, by norm_num, by norm_num, by norm_num,
    (keyop_velocity_bounded_by_max_plus_step ⟨0.1, 3.4, 0.02, 1.2⟩
      [Key.e, Key.up, Key.up] (by norm_num) (by norm_num) (by norm_num) (by norm_num)).1⟩

end KeyOp
